import Mathlib

/-!
Verification development for the lbfq repository (a "largest files" scanner).

Part 1 models `internal/topn/topn.go`: a bounded top-N selector built on Go's
`container/heap` over a slice-backed binary min-heap keyed by item size.
The heap slice is modeled as a `List Item`; Go's `up` and `down` from
`container/heap` are modeled by `siftUp` and `siftDown`; `heap.Push` and
`heap.Pop` by `heapPush` and `heapPop`.  Go `int64` sizes are modeled as `Int`
(no arithmetic is performed on sizes by this component, only comparisons, so
overflow is not a concern).  Capacities are modeled as `Nat` (the spec's domain
is N >= 0).  A Go runtime panic (index out of range) is modeled by `Option`:
`Consider` returns `none` exactly when the Go code would panic.

Part 2 models `internal/scan/scan.go`: the walk producer (Go
`path/filepath.WalkDir` specialized to the closure in `Scan`), the pruning
checks, and the per-candidate stat worker.  Paths are modeled as `List Char`;
the filesystem is a tree; the Go stdlib collaborators `filepath.Match` and
`filepath.Clean` are abstracted as parameters (structure `Ext`), since the
repository only calls them.  The concurrent pipeline is modeled by the list of
results in walk order: workers are a pure per-candidate function sharing no
state, so any interleaving yields the same multiset of results, and all claims
here are order-independent statements about result membership.
-/

/-- One ranked item: `topn.Item` with `Size int64` and `Path string`. -/
structure Item where
  size : Int
  path : String
deriving DecidableEq, Repr

/-- A filesystem path, modeled as its character string.  (Here begins the
model of the scan pipeline, `internal/scan/scan.go`.) -/
abbrev FPath := List Char

/-- Default item used to totalize out-of-range slice reads; every indexing the
Go code performs is in range, and all lemmas carry the corresponding bounds. -/
def dItem : Item := ⟨0, ""⟩

/-- Slice read `h[i]`. -/
def g (l : List Item) (i : Nat) : Item := l.getD i dItem

/-- Size at index `i`: the key the min-heap orders by (`Less i j = h[i].Size < h[j].Size`). -/
def sz (l : List Item) (i : Nat) : Int := (g l i).size

/-- Slice swap `h.Swap(i, j)` from the `minHeap` methods. -/
def swapL (l : List Item) (i j : Nat) : List Item :=
  (l.set i (g l j)).set j (g l i)

/-- Go `container/heap.up(h, j)`: bubble index `j` toward the root while it is
smaller than its parent.  (In Go, `i == j` happens exactly at `j = 0`.) -/
def siftUp (l : List Item) (j : Nat) : List Item :=
  if _h0 : j = 0 then l
  else
    let i := (j - 1) / 2
    if sz l j < sz l i then siftUp (swapL l i j) i else l
termination_by j
decreasing_by omega

/-- Go `container/heap.down(h, i, n)`: push index `i` down within the prefix
`[0, n)`, always swapping with the smaller child.  (The Go `j1 < 0` overflow
guard cannot trigger for our sizes and is dropped; the returned Bool of `down`
is unused by `Push`/`Pop` and is not modeled.) -/
def siftDown (l : List Item) (i n : Nat) : List Item :=
  if _h1 : 2 * i + 1 < n then
    let j := if 2 * i + 2 < n ∧ sz l (2 * i + 2) < sz l (2 * i + 1) then 2 * i + 2 else 2 * i + 1
    if sz l j < sz l i then siftDown (swapL l i j) j n else l
  else l
termination_by n - i
decreasing_by split <;> omega

/-- Go `container/heap.Push(h, x)`: append then sift up from the last index. -/
def heapPush (l : List Item) (x : Item) : List Item :=
  siftUp (l ++ [x]) l.length

/-- Go `container/heap.Pop(h)`: swap the root with the last element, sift the
new root down within the remaining prefix, then remove and return the last
element (the old root, i.e. the minimum).  Returns (popped item, new heap). -/
def heapPop (l : List Item) : Item × List Item :=
  let n := l.length - 1
  let l1 := swapL l 0 n
  let l2 := siftDown l1 0 n
  (g l2 n, l2.take n)

/-- `topn.Keeper`: capacity `N` plus the min-heap slice. -/
structure Keeper where
  N : Nat
  h : List Item
deriving DecidableEq, Repr

/-- `topn.NewKeeper(n)`: empty heap (`heap.Init` on an empty slice is a no-op). -/
def NewKeeper (n : Nat) : Keeper := ⟨n, []⟩

/-- `Keeper.Consider(it)`.  If the heap holds fewer than N items, push.
Otherwise the Go code reads `(*(k.h))[0]`; when the heap is empty (possible
exactly when N = 0) that indexing panics, which is modeled as `none`.
Otherwise, pop-then-push when the root's size is strictly below the incoming
size, else leave the keeper unchanged. -/
def Consider (k : Keeper) (it : Item) : Option Keeper :=
  if k.h.length < k.N then some ⟨k.N, heapPush k.h it⟩
  else
    match k.h with
    | [] => none
    | top :: _ =>
      if top.size < it.size then some ⟨k.N, heapPush (heapPop k.h).2 it⟩
      else some k

/-- The successive values returned by `m` calls of `heap.Pop`. -/
def popList : Nat → List Item → List Item
  | 0, _ => []
  | m + 1, l => (heapPop l).1 :: popList m (heapPop l).2

/-- The heap remaining after `m` calls of `heap.Pop`. -/
def popRest : Nat → List Item → List Item
  | 0, l => l
  | m + 1, l => popRest m (heapPop l).2

/-- `Keeper.ItemsDesc()`.  The first Go loop fills `out` from the back with
successive pops, so after it `out` is the reverse of the pop sequence; the
second loop reverses `out` in place.  Returns (the returned slice, the keeper
as it is left after the pops: its heap drained). -/
def ItemsDesc (k : Keeper) : List Item × Keeper :=
  (((popList k.h.length k.h).reverse).reverse, ⟨k.N, popRest k.h.length k.h⟩)

/-- The items `Consider k it` evicts from the heap in this step (`heap.Pop`
calls made on a full heap); mirrors the branching of `Consider`. -/
def evictedStep (k : Keeper) (it : Item) : List Item :=
  if k.h.length < k.N then []
  else
    match k.h with
    | [] => []
    | top :: _ => if top.size < it.size then [(heapPop k.h).1] else []

/-- Run a whole admission stream through `Consider`, collecting the evicted
items in chronological order; `none` if any step panics. -/
def considerRun (k : Keeper) : List Item → Option (Keeper × List Item)
  | [] => some (k, [])
  | x :: xs =>
    match Consider k x with
    | none => none
    | some k' =>
      match considerRun k' xs with
      | none => none
      | some (kf, ev) => some (kf, evictedStep k x ++ ev)

/-- The slice satisfies the min-heap order on its prefix `[0, n)`. -/
def IsHeapTo (l : List Item) (n : Nat) : Prop :=
  ∀ j, j < n → 0 < j → sz l ((j - 1) / 2) ≤ sz l j

def IsMinHeap (l : List Item) : Prop := IsHeapTo l l.length

instance (l : List Item) (n : Nat) : Decidable (IsHeapTo l n) :=
  Nat.decidableBallLT n fun j _ => 0 < j → sz l ((j - 1) / 2) ≤ sz l j

instance (l : List Item) : Decidable (IsMinHeap l) :=
  inferInstanceAs (Decidable (IsHeapTo l l.length))

/-- The multiset of sizes of a list of items. -/
def sizesL (l : List Item) : Multiset Int := ((l.map Item.size : List Int) : Multiset Int)

/-- `t` is the multiset of the `N` largest elements of `s` (with multiplicity):
`t` is contained in `s`, has `min N s.card` elements, and dominates everything
left outside of it. -/
def IsTopN (N : Nat) (s t : Multiset Int) : Prop :=
  t ≤ s ∧ Multiset.card t = min N (Multiset.card s) ∧ ∀ b ∈ s - t, ∀ a ∈ t, b ≤ a

/-- The invariant tying a keeper's state after an admission stream `adm` to the
stream itself and to the items evicted so far. -/
structure KState (N : Nat) (adm : List Item) (k : Keeper) (ev : List Item) : Prop where
  hN : k.N = N
  hheap : IsMinHeap k.h
  hcard : k.h.length = min N adm.length
  htop : IsTopN N (sizesL adm) (sizesL k.h)
  hdom : ∀ e ∈ ev, ∀ a ∈ k.h, e.size ≤ a.size
  hfull : ev = [] ∨ k.h.length = N

/-- Spec-side selection, written from the claim's words: tag the admitted items
with arrival indices, order by size descending with the earlier arrival winning
ties, and keep the first N. -/
def arrivalRank (p q : Nat × Item) : Prop :=
  q.2.size < p.2.size ∨ (p.2.size = q.2.size ∧ p.1 ≤ q.1)

instance : DecidableRel arrivalRank := fun p q => by
  unfold arrivalRank
  infer_instance

/-- The N largest items with ties broken by arrival order, as a multiset. -/
def specTopByArrival (N : Nat) (xs : List Item) : Multiset Item :=
  (((List.insertionSort arrivalRank xs.enum).take N).map Prod.snd : List Item)

/-- Sorted in descending order of size, as a Boolean check. -/
def descBySize : List Item → Bool
  | a :: b :: r => (b.size ≤ a.size) && descBySize (b :: r)
  | _ => true

/-- What the worker's `os.Lstat` reports about an entry: `IsDir()`, `Size()`,
and the allocated 512-byte block count (`none` when `info.Sys()` is not a
`*syscall.Stat_t`, i.e. block information is unavailable). -/
structure FInfo where
  isDir : Bool
  size : Int
  blocks : Option Int
deriving DecidableEq, Repr

/-- `scan.Config`.  The `Workers` field (pool size) is omitted: every candidate
is processed by exactly one worker by a pure function, so the number of workers
only affects interleaving, not the multiset of results this model captures. -/
structure Config where
  Root : FPath
  MinSize : Int
  XDev : Bool
  Apparent : Bool
  Skips : List FPath
  ExcludeGlobs : List FPath

/-- `scan.Result`. -/
structure Result where
  Size : Int
  Path : FPath
deriving DecidableEq, Repr

/-- External collaborators from the Go standard library, abstracted: `matchGlob`
is `path/filepath.Match` (pattern, name) and `clean` is `path/filepath.Clean`.
The repository only calls them; no claim depends on their internals. -/
structure Stdlib where
  matchGlob : FPath → FPath → Bool
  clean : FPath → FPath

/-- `strings.TrimSpace`. -/
def trimSpace (s : FPath) : FPath :=
  ((s.dropWhile Char.isWhitespace).reverse.dropWhile Char.isWhitespace).reverse

/-- `scan.hasPrefix`: does the (unnormalized) path start, as a plain string,
with any of the prefixes? -/
def hasPrefix (path : FPath) (prefixes : List FPath) : Bool :=
  prefixes.any fun p => p.isPrefixOf path

/-- `scan.matchAnyGlob`: match the cleaned full path against each glob,
trimming surrounding space and skipping empty patterns. -/
def matchAnyGlob (ext : Stdlib) (path : FPath) (globs : List FPath) : Bool :=
  if globs.isEmpty then false
  else
    globs.any fun g0 =>
      let g1 := trimSpace g0
      if g1.isEmpty then false
      else ext.matchGlob g1 (ext.clean path)

/-- `scan.fileBytes`: apparent size is the logical length; on-disk size is the
512-byte block count times 512, falling back to the logical length when block
information is unavailable. -/
def fileBytes (info : FInfo) (apparent : Bool) : Int :=
  if apparent then info.size
  else
    match info.blocks with
    | some b => b * 512
    | none => info.size

/-- The filesystem as the walk sees it: every node carries the device id that
`syscall.Lstat` would report for it (`none` = Lstat fails, which skips the XDev
check for that entry).  A directory carries `readErr` (its `os.ReadDir` call
reports an error; the children list is then whatever ReadDir still returned)
and its named children. -/
inductive FSTree where
  | file (dev : Option Int)
  | symlink (dev : Option Int)
  | dir (dev : Option Int) (readErr : Bool) (children : List (FPath × FSTree))

/-- What `fs.DirEntry` reports: `IsDir()` and `Type()&ModeSymlink != 0`. -/
structure DirEnt where
  isDir : Bool
  isSymlink : Bool

def FSTree.dev : FSTree → Option Int
  | .file d => d
  | .symlink d => d
  | .dir d _ _ => d

def FSTree.dirEnt : FSTree → DirEnt
  | .file _ => ⟨false, false⟩
  | .symlink _ => ⟨false, true⟩
  | .dir _ _ _ => ⟨true, false⟩

/-- The only error value the callback in `Scan` ever returns: `filepath.SkipDir`. -/
inductive WErr
  | skipDir
deriving DecidableEq

/-- The XDev pruning test: `syscall.Lstat` succeeded and reported a device
different from the root's. -/
def xdevPrune (dev : Option Int) (rootDev : Int) : Bool :=
  match dev with
  | some dv => dv != rootDev
  | none => false

/-- The `WalkDir` callback closure in `Scan` (scan.go): `d = none` models a nil
`fs.DirEntry` (only passed together with a walk error), `dev` is what
`syscall.Lstat(path)` reports, `errFlag` is whether the walk passed a non-nil
error.  Returns (paths sent to the candidates channel, returned error). -/
def walkFn (ext : Stdlib) (cfg : Config) (xdev : Bool) (rootDev : Int)
    (path : FPath) (d : Option DirEnt) (dev : Option Int) (errFlag : Bool) :
    List FPath × Option WErr :=
  if errFlag then ([], none)
  else
    let de := d.getD ⟨false, false⟩
    if hasPrefix path cfg.Skips then
      if de.isDir then ([], some .skipDir) else ([], none)
    else if matchAnyGlob ext path cfg.ExcludeGlobs then
      if de.isDir then ([], some .skipDir) else ([], none)
    else if xdev && xdevPrune dev rootDev then
      if de.isDir then ([], some .skipDir) else ([], none)
    else if de.isSymlink then
      if de.isDir then ([], some .skipDir) else ([], none)
    else ([path], none)

mutual

/-- Go `path/filepath.walkDir(path, d, fn)` specialized to the callback above:
call the callback; on SkipDir from a directory, prune; otherwise descend,
reporting a ReadDir error through a second callback call, then walk the
children in order, joining names with a slash. -/
def walkDir (ext : Stdlib) (cfg : Config) (xdev : Bool) (rootDev : Int)
    (path : FPath) (t : FSTree) : List FPath × Option WErr :=
  let de := t.dirEnt
  let r1 := walkFn ext cfg xdev rootDev path (some de) t.dev false
  match r1.2 with
  | some e => (r1.1, if de.isDir then none else some e)
  | none =>
    match t with
    | .dir dv readErr cs =>
      let r2 := if readErr then walkFn ext cfg xdev rootDev path (some de) dv true
                else ([], none)
      match r2.2 with
      | some e => (r1.1 ++ r2.1, if e = .skipDir then none else some e)
      | none =>
        let r3 := walkChildren ext cfg xdev rootDev path cs
        (r1.1 ++ r2.1 ++ r3.1, r3.2)
    | _ => (r1.1, none)

/-- The `for _, d1 := range dirs` loop of `walkDir`: a SkipDir returned by a
child (possible in Go only for non-directory children) breaks the loop. -/
def walkChildren (ext : Stdlib) (cfg : Config) (xdev : Bool) (rootDev : Int)
    (path : FPath) (cs : List (FPath × FSTree)) : List FPath × Option WErr :=
  match cs with
  | [] => ([], none)
  | (name, c) :: rest =>
    let r := walkDir ext cfg xdev rootDev (path ++ '/' :: name) c
    match r.2 with
    | some .skipDir => (r.1, none)
    | none =>
      let r2 := walkChildren ext cfg xdev rootDev path rest
      (r.1 ++ r2.1, r2.2)
end

/-- Go `path/filepath.WalkDir(root, fn)` as `Scan` calls it: an inaccessible
root (`fs = none`, `os.Lstat` fails) makes exactly one callback call with a nil
entry and the error; `Scan` ignores `WalkDir`'s returned error entirely, so
only the emitted candidate paths matter. -/
def walkRoot (ext : Stdlib) (cfg : Config) (xdev : Bool) (rootDev : Int)
    (fs : Option FSTree) : List FPath :=
  match fs with
  | none => (walkFn ext cfg xdev rootDev cfg.Root none none true).1
  | some t => (walkDir ext cfg xdev rootDev cfg.Root t).1

/-- `scan.devOf(cfg.Root)`: the root's device id, `none` on Lstat error (also
when the root itself is inaccessible). -/
def devOfRoot (fs : Option FSTree) : Option Int :=
  match fs with
  | none => none
  | some t => t.dev

/-- One size-resolution worker step on one candidate path: re-`Lstat` it
(`statFn`, abstract to admit races with the walk), discard on error or if it is
a directory, compute the size, and emit a result only when the size is at
least MinSize. -/
def workerStep (cfg : Config) (statFn : FPath → Option FInfo) (path : FPath) :
    Option Result :=
  match statFn path with
  | none => none
  | some info =>
    if info.isDir then none
    else
      let s := fileBytes info cfg.Apparent
      if cfg.MinSize ≤ s then some ⟨s, path⟩ else none

/-- `scan.Scan`: resolve the root device (on failure disable XDev and leave
rootDev = 0), walk the tree for candidates, and let the workers map candidates
to results.  The channel pipeline is modeled by the resulting list in walk
order; workers share no state, so any interleaving yields this multiset. -/
def ScanM (ext : Stdlib) (cfg : Config) (fs : Option FSTree) (statFn : FPath → Option FInfo) :
    List Result :=
  let rd := devOfRoot fs
  let xdev := cfg.XDev && rd.isSome
  let rootDev := rd.getD 0
  (walkRoot ext cfg xdev rootDev fs).filterMap (workerStep cfg statFn)

mutual

/-- Well-formedness of the modeled tree: entry names contain no slash (as on a
real filesystem). -/
def namesOk : FSTree → Bool
  | .file _ => true
  | .symlink _ => true
  | .dir _ _ cs => namesOkL cs

def namesOkL : List (FPath × FSTree) → Bool
  | [] => true
  | (name, c) :: rest => !(decide ('/' ∈ name)) && namesOk c && namesOkL rest
end

def extEq : Stdlib := ⟨fun a b => a == b, id⟩

def cfgA : Config := ⟨"/r".data, 0, false, true, [], []⟩

def treeA : FSTree := .dir (some 1) false [("f".data, .file (some 1))]

def statA : FPath → Option FInfo := fun p =>
  if p = "/r".data then some ⟨true, 0, none⟩
  else if p = "/r/f".data then some ⟨false, 10, none⟩
  else none

/-- C4 counterexample fixture: an accessible, empty root directory. -/
def emptyDir : FSTree := .dir (some 1) false []

/-- C8 counterexample fixture: scan rooted below a glob-matching path. -/
def cfg8 : Config := ⟨"/r/sub".data, 0, false, true, [], ["/r".data]⟩

def tree8 : FSTree := .dir (some 1) false [("f".data, .file (some 1))]

def stat8 : FPath → Option FInfo := fun p =>
  if p = "/r/sub".data then some ⟨true, 0, none⟩
  else if p = "/r/sub/f".data then some ⟨false, 10, none⟩
  else none

/-- C8 witness fixtures: a root with an excluded subtree and a kept file. -/
def cfgW : Config := ⟨"/r".data, 0, false, true, [], ["/r/ex".data]⟩

def treeW : FSTree :=
  .dir (some 1) false
    [("ex".data, .dir (some 1) false [("big".data, .file (some 1))]),
     ("keep".data, .file (some 1))]

def statW : FPath → Option FInfo := fun p =>
  if p = "/r".data then some ⟨true, 0, none⟩
  else if p = "/r/keep".data then some ⟨false, 10, none⟩
  else if p = "/r/ex/big".data then some ⟨false, 999, none⟩
  else none

/-- C10 witness fixtures: a skip prefix "/r/p" that is not a whole path
component prunes the sibling directory "/r/p-backup". -/
def cfg10 : Config := ⟨"/r".data, 0, false, true, ["/r/p".data], []⟩

def tree10 : FSTree :=
  .dir (some 1) false
    [("p-backup".data, .dir (some 1) false [("big".data, .file (some 1))]),
     ("keep".data, .file (some 1))]

def stat10 : FPath → Option FInfo := fun p =>
  if p = "/r".data then some ⟨true, 0, none⟩
  else if p = "/r/keep".data then some ⟨false, 10, none⟩
  else if p = "/r/p-backup/big".data then some ⟨false, 999, none⟩
  else none

theorem g_eq_getElem {l : List Item} {i : Nat} (h : i < l.length) : g l i = l[i] := by
  simp [g, List.getD_eq_getElem?_getD, List.getElem?_eq_getElem h]

theorem length_swapL (l : List Item) (i j : Nat) : (swapL l i j).length = l.length := by
  simp [swapL]

theorem g_swapL_fst {l : List Item} {i j : Nat} (hi : i < l.length) (hj : j < l.length) :
    g (swapL l i j) i = g l j := by
  by_cases hij : i = j
  · subst hij
    simp [swapL, g, List.getD_eq_getElem?_getD, List.getElem?_set, hi]
  · simp [swapL, g, List.getD_eq_getElem?_getD, List.getElem?_set, hij, Ne.symm hij, hi]

theorem g_swapL_snd {l : List Item} {i j : Nat} (hi : i < l.length) (hj : j < l.length) :
    g (swapL l i j) j = g l i := by
  simp [swapL, g, List.getD_eq_getElem?_getD, List.getElem?_set, hj, hi]

theorem g_swapL_other {l : List Item} {i j k : Nat} (hki : k ≠ i) (hkj : k ≠ j) :
    g (swapL l i j) k = g l k := by
  simp [swapL, g, List.getD_eq_getElem?_getD, List.getElem?_set, Ne.symm hki, Ne.symm hkj]

theorem sz_swapL {l : List Item} {i j : Nat} (hi : i < l.length) (hj : j < l.length) (k : Nat) :
    sz (swapL l i j) k = if k = i then sz l j else if k = j then sz l i else sz l k := by
  by_cases hki : k = i
  · subst hki; simp [sz, g_swapL_fst hi hj]
  · by_cases hkj : k = j
    · subst hkj; simp [sz, g_swapL_snd hi hj, hki]
    · simp [sz, g_swapL_other hki hkj, hki, hkj]

theorem coe_set_add {l : List Item} {i : Nat} (hi : i < l.length) (a : Item) :
    ((l.set i a : List Item) : Multiset Item) + {g l i} = (l : Multiset Item) + {a} := by
  rw [List.set_eq_take_cons_drop a hi]
  conv_rhs => rw [← List.take_append_drop i l, List.drop_eq_getElem_cons hi]
  rw [g_eq_getElem hi]
  rw [Multiset.coe_eq_coe.2 (List.perm_middle (a := a)), Multiset.coe_eq_coe.2 (List.perm_middle (a := l[i]))]
  rw [← Multiset.cons_coe, ← Multiset.cons_coe]
  rw [← Multiset.singleton_add, ← Multiset.singleton_add]
  abel

theorem coe_swapL {l : List Item} {i j : Nat} (hi : i < l.length) (hj : j < l.length) :
    ((swapL l i j : List Item) : Multiset Item) = (l : Multiset Item) := by
  have h1 : i < (l.set i (g l j)).length := by simpa using hi
  have h2 : j < (l.set i (g l j)).length := by simpa using hj
  have e1 := coe_set_add (l := l) hi (g l j)
  have e2 := coe_set_add (l := l.set i (g l j)) h2 (g l i)
  have hji : g (l.set i (g l j)) j = if j = i then g l j else g l j := by
    by_cases hij : j = i
    · subst hij; simp [g, List.getD_eq_getElem?_getD, List.getElem?_set, hi]
    · simp [g, List.getD_eq_getElem?_getD, List.getElem?_set, hij, Ne.symm hij]
  rw [ite_self] at hji
  rw [hji] at e2
  have : ((swapL l i j : List Item) : Multiset Item) + {g l j} + {g l i}
      = (l : Multiset Item) + {g l j} + {g l i} := by
    calc ((swapL l i j : List Item) : Multiset Item) + {g l j} + {g l i}
        = (((l.set i (g l j)).set j (g l i) : List Item) : Multiset Item) + {g l j} + {g l i} := rfl
      _ = ((l.set i (g l j) : List Item) : Multiset Item) + {g l i} + {g l i} := by rw [add_right_cancel_iff]; exact e2
      _ = (l : Multiset Item) + {g l j} + {g l i} := by rw [add_right_cancel_iff]; exact e1
  exact add_right_cancel (add_right_cancel this)

theorem root_min {l : List Item} {n : Nat} (h : IsHeapTo l n) :
    ∀ j, j < n → sz l 0 ≤ sz l j := by
  intro j
  induction j using Nat.strong_induction_on with
  | _ j IH =>
    intro hj
    rcases Nat.eq_zero_or_pos j with h0 | h0
    · subst h0; exact le_refl _
    · exact le_trans (IH ((j - 1) / 2) (by omega) (by omega)) (h j hj h0)

theorem length_siftUp : ∀ (j : Nat) (l : List Item), (siftUp l j).length = l.length := by
  intro j
  induction j using Nat.strong_induction_on with
  | _ j IH =>
    intro l
    rw [siftUp]
    split
    · rfl
    · dsimp only
      split
      · rw [IH _ (by omega), length_swapL]
      · rfl

theorem coe_siftUp : ∀ (j : Nat) (l : List Item), j < l.length →
    ((siftUp l j : List Item) : Multiset Item) = (l : Multiset Item) := by
  intro j
  induction j using Nat.strong_induction_on with
  | _ j IH =>
    intro l hj
    rw [siftUp]
    split
    · rfl
    · dsimp only
      split
      · rename_i h0 hlt
        rw [IH _ (by omega) _ (by rw [length_swapL]; omega),
          coe_swapL (by omega) hj]
      · rfl

theorem length_siftDown (l : List Item) (i n : Nat) : (siftDown l i n).length = l.length := by
  rw [siftDown]
  split
  · dsimp only
    split <;> split
    · rw [length_siftDown, length_swapL]
    · rfl
    · rw [length_siftDown, length_swapL]
    · rfl
  · rfl
termination_by n - i
decreasing_by all_goals omega

theorem coe_siftDown (l : List Item) (i n : Nat) (hn : n ≤ l.length) :
    ((siftDown l i n : List Item) : Multiset Item) = (l : Multiset Item) := by
  rw [siftDown]
  split
  · dsimp only
    split <;> split
    · rename_i h1 hj hlt
      rw [coe_siftDown _ _ _ (by rw [length_swapL]; exact hn),
        coe_swapL (by omega) (by omega)]
    · rfl
    · rename_i h1 hj hlt
      rw [coe_siftDown _ _ _ (by rw [length_swapL]; exact hn),
        coe_swapL (by omega) (by omega)]
    · rfl
  · rfl
termination_by n - i
decreasing_by all_goals omega

theorem g_siftDown_ge (l : List Item) (i n : Nat) (k : Nat) (hk : n ≤ k) :
    g (siftDown l i n) k = g l k := by
  rw [siftDown]
  split
  · dsimp only
    split <;> split
    · rename_i h1 hj hlt
      rw [g_siftDown_ge _ _ _ _ hk, g_swapL_other (by omega) (by omega)]
    · rfl
    · rename_i h1 hj hlt
      rw [g_siftDown_ge _ _ _ _ hk, g_swapL_other (by omega) (by omega)]
    · rfl
  · rfl
termination_by n - i
decreasing_by all_goals omega

theorem siftUp_correct (l : List Item) (j : Nat) (hj : j < l.length)
    (h1 : ∀ k, k < l.length → 0 < k → k ≠ j → sz l ((k - 1) / 2) ≤ sz l k)
    (h2 : ∀ c, c < l.length → 0 < j → (c - 1) / 2 = j → sz l ((j - 1) / 2) ≤ sz l c) :
    IsMinHeap (siftUp l j) := by
  rw [siftUp]
  split
  · rename_i h0
    subst h0
    intro k hk hk0
    exact h1 k hk hk0 (by omega)
  · rename_i h0
    dsimp only
    split
    · rename_i hlt
      have hi : (j - 1) / 2 < l.length := by omega
      apply siftUp_correct (swapL l ((j - 1) / 2) j) ((j - 1) / 2)
        (by rw [length_swapL]; omega)
      · -- edges away from the new hole (j-1)/2 still hold after the swap
        intro k hk hk0 hki
        rw [length_swapL] at hk
        rw [sz_swapL hi hj, sz_swapL hi hj]
        by_cases hkj : k = j
        · subst hkj
          rw [if_pos rfl, if_neg (by omega), if_pos rfl]
          exact le_of_lt hlt
        · by_cases hpi : (k - 1) / 2 = (j - 1) / 2
          · rw [if_pos hpi, if_neg hki, if_neg hkj]
            refine le_trans (le_of_lt hlt) ?_
            have := h1 k hk hk0 hkj
            rwa [hpi] at this
          · by_cases hpj : (k - 1) / 2 = j
            · rw [if_neg hpi, if_pos hpj, if_neg hki, if_neg hkj]
              exact h2 k hk (by omega) hpj
            · rw [if_neg hpi, if_neg hpj, if_neg hki, if_neg hkj]
              exact h1 k hk hk0 hkj
      · -- grandchildren of the new hole are still dominated by its parent
        intro c hc hi0 hci
        rw [length_swapL] at hc
        rw [sz_swapL hi hj, sz_swapL hi hj]
        have hq1 : ((j - 1) / 2 - 1) / 2 ≠ (j - 1) / 2 := by omega
        have hq2 : ((j - 1) / 2 - 1) / 2 ≠ j := by omega
        rw [if_neg hq1, if_neg hq2]
        have hstep : sz l (((j - 1) / 2 - 1) / 2) ≤ sz l ((j - 1) / 2) :=
          h1 ((j - 1) / 2) hi hi0 (by omega)
        by_cases hcj : c = j
        · subst hcj
          rw [if_neg (by omega), if_pos rfl]
          exact hstep
        · have hcne : c ≠ (j - 1) / 2 := by omega
          rw [if_neg hcne, if_neg hcj]
          refine le_trans hstep ?_
          have := h1 c hc (by omega) hcj
          rwa [hci] at this
    · rename_i hnlt
      intro k hk hk0
      by_cases hkj : k = j
      · subst hkj
        exact le_of_not_lt hnlt
      · exact h1 k hk hk0 hkj
termination_by j
decreasing_by omega

theorem siftDown_correct (l : List Item) (i n : Nat) (hn : n ≤ l.length)
    (h1 : ∀ k, k < n → 0 < k → (k - 1) / 2 ≠ i → sz l ((k - 1) / 2) ≤ sz l k)
    (h2 : ∀ c, c < n → 0 < i → (c - 1) / 2 = i → sz l ((i - 1) / 2) ≤ sz l c) :
    IsHeapTo (siftDown l i n) n := by
  rw [siftDown]
  split
  · rename_i hj1
    dsimp only
    split
    · -- the smaller child is j = 2*i+2
      rename_i hc
      have hjn : 2 * i + 2 < n := hc.1
      have hjmin : sz l (2 * i + 2) ≤ sz l (2 * i + 1) := le_of_lt hc.2
      have hi : i < l.length := by omega
      have hjb : 2 * i + 2 < l.length := by omega
      split
      · rename_i hlt
        apply siftDown_correct (swapL l i (2 * i + 2)) (2 * i + 2) n
          (by rw [length_swapL]; exact hn)
        · intro k hk hk0 hkp
          rw [sz_swapL hi hjb, sz_swapL hi hjb]
          by_cases hki : k = i
          · subst hki
            rw [if_neg (by omega), if_neg (by omega), if_pos rfl]
            exact h2 (2 * k + 2) hjn (by omega) (by omega)
          · by_cases hkj : k = 2 * i + 2
            · subst hkj
              rw [if_pos (by omega), if_neg hki, if_pos rfl]
              exact le_of_lt hlt
            · by_cases hpi : (k - 1) / 2 = i
              · -- k is the other child 2*i+1 of i
                have hk1 : k = 2 * i + 1 := by omega
                subst hk1
                rw [if_pos hpi, if_neg hki, if_neg hkj]
                exact hjmin
              · rw [if_neg hpi, if_neg (by omega), if_neg hki, if_neg hkj]
                exact h1 k hk hk0 hpi
        · intro c hc' hj0 hcp
          rw [sz_swapL hi hjb, sz_swapL hi hjb]
          rw [if_pos (by omega), if_neg (by omega), if_neg (by omega)]
          have := h1 c hc' (by omega) (by omega)
          rwa [hcp] at this
      · rename_i hnlt
        intro k hk hk0
        by_cases hpi : (k - 1) / 2 = i
        · have hk12 : k = 2 * i + 1 ∨ k = 2 * i + 2 := by omega
          rw [hpi]
          rcases hk12 with h | h <;> subst h
          · exact le_trans (le_of_not_lt hnlt) hjmin
          · exact le_of_not_lt hnlt
        · exact h1 k hk hk0 hpi
    · -- the smaller child is j = 2*i+1
      rename_i hc
      have hi : i < l.length := by omega
      have hjb : 2 * i + 1 < l.length := by omega
      have hjmin : 2 * i + 2 < n → sz l (2 * i + 1) ≤ sz l (2 * i + 2) := by
        intro h22
        rcases not_and_or.1 hc with h' | h'
        · omega
        · exact le_of_not_lt h'
      split
      · rename_i hlt
        apply siftDown_correct (swapL l i (2 * i + 1)) (2 * i + 1) n
          (by rw [length_swapL]; exact hn)
        · intro k hk hk0 hkp
          rw [sz_swapL hi hjb, sz_swapL hi hjb]
          by_cases hki : k = i
          · subst hki
            rw [if_neg (by omega), if_neg (by omega), if_pos rfl]
            exact h2 (2 * k + 1) hj1 (by omega) (by omega)
          · by_cases hkj : k = 2 * i + 1
            · subst hkj
              rw [if_pos (by omega), if_neg hki, if_pos rfl]
              exact le_of_lt hlt
            · by_cases hpi : (k - 1) / 2 = i
              · have hk2 : k = 2 * i + 2 := by omega
                subst hk2
                rw [if_pos hpi, if_neg hki, if_neg hkj]
                exact hjmin hk
              · rw [if_neg hpi, if_neg (by omega), if_neg hki, if_neg hkj]
                exact h1 k hk hk0 hpi
        · intro c hc' hj0 hcp
          rw [sz_swapL hi hjb, sz_swapL hi hjb]
          rw [if_pos (by omega), if_neg (by omega), if_neg (by omega)]
          have := h1 c hc' (by omega) (by omega)
          rwa [hcp] at this
      · rename_i hnlt
        intro k hk hk0
        by_cases hpi : (k - 1) / 2 = i
        · have hk12 : k = 2 * i + 1 ∨ k = 2 * i + 2 := by omega
          rw [hpi]
          rcases hk12 with h | h <;> subst h
          · exact le_of_not_lt hnlt
          · exact le_trans (le_of_not_lt hnlt) (hjmin hk)
        · exact h1 k hk hk0 hpi
  · rename_i hj1
    intro k hk hk0
    by_cases hpi : (k - 1) / 2 = i
    · omega
    · exact h1 k hk hk0 hpi
termination_by n - i
decreasing_by all_goals omega

theorem g_append_lt {l : List Item} {x : Item} {k : Nat} (hk : k < l.length) :
    g (l ++ [x]) k = g l k := by
  simp [g, List.getD_eq_getElem?_getD, List.getElem?_append, hk]

theorem g_append_len (l : List Item) (x : Item) : g (l ++ [x]) l.length = x := by
  simp [g, List.getD_eq_getElem?_getD]

theorem g_take {l : List Item} {n k : Nat} (hk : k < n) : g (l.take n) k = g l k := by
  simp [g, List.getD_eq_getElem?_getD, List.getElem?_take, hk]

theorem heapPush_correct (l : List Item) (x : Item) (hl : IsMinHeap l) :
    IsMinHeap (heapPush l x) ∧ (heapPush l x).length = l.length + 1 ∧
    ((heapPush l x : List Item) : Multiset Item) = x ::ₘ (l : Multiset Item) := by
  refine ⟨?_, ?_, ?_⟩
  · apply siftUp_correct (l ++ [x]) l.length (by simp)
    · intro k hk hk0 hkj
      simp only [List.length_append, List.length_singleton] at hk
      have hkl : k < l.length := by omega
      rw [sz, sz, g_append_lt hkl, g_append_lt (by omega)]
      exact hl k hkl hk0
    · intro c hc hj0 hcp
      simp only [List.length_append, List.length_singleton] at hc
      omega
  · rw [heapPush, length_siftUp]; simp
  · rw [heapPush, coe_siftUp _ _ (by simp)]
    rw [show ((l ++ [x] : List Item) : Multiset Item) = ↑l + ↑[x] from rfl]
    rw [Multiset.coe_singleton, ← Multiset.singleton_add, add_comm]

theorem heapPop_correct (l : List Item) (hne : 0 < l.length) (hl : IsMinHeap l) :
    (heapPop l).1 = g l 0 ∧ (heapPop l).2.length = l.length - 1 ∧
    IsMinHeap (heapPop l).2 ∧
    (l : Multiset Item) = (heapPop l).1 ::ₘ ((heapPop l).2 : Multiset Item) ∧
    (∀ y ∈ l, ((heapPop l).1).size ≤ y.size) := by
  have hn : l.length - 1 < l.length := by omega
  have hlen1 : (swapL l 0 (l.length - 1)).length = l.length := length_swapL l 0 (l.length - 1)
  have hlen2 : (siftDown (swapL l 0 (l.length - 1)) 0 (l.length - 1)).length = l.length := by
    rw [length_siftDown, hlen1]
  have hfst : (heapPop l).1 = g l 0 := by
    show g (siftDown (swapL l 0 (l.length - 1)) 0 (l.length - 1)) (l.length - 1) = g l 0
    rw [g_siftDown_ge _ _ _ _ (le_refl _), g_swapL_snd hne hn]
  have hheap2 : IsHeapTo (siftDown (swapL l 0 (l.length - 1)) 0 (l.length - 1)) (l.length - 1) := by
    apply siftDown_correct _ _ _ (by omega)
    · intro k hk hk0 hkp
      rw [sz, sz, g_swapL_other (by omega) (by omega), g_swapL_other (by omega) (by omega)]
      exact hl k (by omega) hk0
    · intro c hc hi0 hcp
      omega
  have hcoe2 : ((siftDown (swapL l 0 (l.length - 1)) 0 (l.length - 1) : List Item) : Multiset Item)
      = (l : Multiset Item) := by
    rw [coe_siftDown _ _ _ (by omega), coe_swapL hne hn]
  refine ⟨hfst, ?_, ?_, ?_, ?_⟩
  · show (List.take (l.length - 1) _).length = l.length - 1
    rw [List.length_take, hlen2]; omega
  · show IsMinHeap (List.take (l.length - 1) _)
    intro k hk hk0
    rw [List.length_take, hlen2] at hk
    have hk' : k < l.length - 1 := by omega
    rw [sz, sz, g_take hk', g_take (by omega)]
    exact hheap2 k hk' hk0
  · have hpop : heapPop l = (g (siftDown (swapL l 0 (l.length - 1)) 0 (l.length - 1)) (l.length - 1),
        (siftDown (swapL l 0 (l.length - 1)) 0 (l.length - 1)).take (l.length - 1)) := rfl
    rw [hpop]
    have hsplit : (siftDown (swapL l 0 (l.length - 1)) 0 (l.length - 1)) =
        List.take (l.length - 1) (siftDown (swapL l 0 (l.length - 1)) 0 (l.length - 1)) ++
        [g (siftDown (swapL l 0 (l.length - 1)) 0 (l.length - 1)) (l.length - 1)] := by
      conv_lhs => rw [← List.take_append_drop (l.length - 1)
        (siftDown (swapL l 0 (l.length - 1)) 0 (l.length - 1))]
      congr 1
      rw [List.drop_eq_getElem_cons (by omega), g_eq_getElem (by omega)]
      congr 1
      rw [List.drop_eq_nil_of_le (by omega)]
    calc (l : Multiset Item)
        = ↑(siftDown (swapL l 0 (l.length - 1)) 0 (l.length - 1)) := hcoe2.symm
      _ = _ := by
          conv_lhs => rw [hsplit]
          rw [show ∀ (a b : List Item), ((a ++ b : List Item) : Multiset Item) = ↑a + ↑b
            from fun a b => rfl]
          rw [Multiset.coe_singleton, ← Multiset.singleton_add, add_comm,
            Multiset.singleton_add]
  · intro y hy
    rw [hfst]
    rcases List.mem_iff_getElem.1 hy with ⟨j, hj, rfl⟩
    have := root_min hl j hj
    rw [sz, sz, g_eq_getElem hj] at this
    exact this

theorem isTopN_grow {N : Nat} {s t : Multiset Int} (h : IsTopN N s t)
    (hc : Multiset.card t < N) (x : Int) : IsTopN N (x ::ₘ s) (x ::ₘ t) := by
  obtain ⟨hle, hcard, hdom⟩ := h
  have hcs : Multiset.card s ≤ Multiset.card t := by
    rw [Nat.min_def] at hcard; split at hcard <;> omega
  have hts : t = s := Multiset.eq_of_le_of_card_le hle hcs
  refine ⟨Multiset.cons_le_cons x hle, ?_, ?_⟩
  · rw [Multiset.card_cons, Multiset.card_cons, Nat.min_def]
    rw [Nat.min_def] at hcard
    split at hcard <;> split <;> omega
  · intro b hb
    rw [hts, tsub_self] at hb
    exact absurd hb (Multiset.not_mem_zero b)

theorem isTopN_reject {N : Nat} {s t : Multiset Int} {m x : Int} (h : IsTopN N s t)
    (hcard : Multiset.card t = N) (hmin : ∀ a ∈ t, m ≤ a) (hx : x ≤ m) :
    IsTopN N (x ::ₘ s) t := by
  obtain ⟨hle, _, hdom⟩ := h
  have hNs : N ≤ Multiset.card s := hcard ▸ Multiset.card_le_card hle
  refine ⟨le_trans hle (Multiset.le_cons_self s x), ?_, ?_⟩
  · rw [Multiset.card_cons, Nat.min_def]; split <;> omega
  · have hsub : (x ::ₘ s) - t = x ::ₘ (s - t) := by
      ext a
      rw [Multiset.count_sub, Multiset.count_cons, Multiset.count_cons, Multiset.count_sub]
      have := Multiset.count_le_of_le a hle
      split <;> omega
    intro b hb a ha
    rw [hsub, Multiset.mem_cons] at hb
    rcases hb with rfl | hb
    · exact le_trans hx (hmin a ha)
    · exact hdom b hb a ha

theorem isTopN_replace {N : Nat} {s r : Multiset Int} {m x : Int}
    (h : IsTopN N s (m ::ₘ r)) (hcard : Multiset.card (m ::ₘ r) = N)
    (hmin : ∀ a ∈ m ::ₘ r, m ≤ a) (hx : m < x) : IsTopN N (x ::ₘ s) (x ::ₘ r) := by
  obtain ⟨hle, _, hdom⟩ := h
  have hrs : r ≤ s := le_trans (Multiset.le_cons_self r m) hle
  have hNs : N ≤ Multiset.card s := hcard ▸ Multiset.card_le_card hle
  refine ⟨Multiset.cons_le_cons x hrs, ?_, ?_⟩
  · rw [Multiset.card_cons, Multiset.card_cons, Nat.min_def]
    rw [Multiset.card_cons] at hcard
    split <;> omega
  · have hsub : (x ::ₘ s) - (x ::ₘ r) = m ::ₘ (s - (m ::ₘ r)) := by
      ext a
      rw [Multiset.count_sub, Multiset.count_cons, Multiset.count_cons, Multiset.count_cons,
        Multiset.count_sub, Multiset.count_cons]
      have h1 := Multiset.count_le_of_le a hle
      have h2 := Multiset.count_le_of_le a hrs
      rw [Multiset.count_cons] at h1
      by_cases hax : a = x <;> by_cases ham : a = m <;> simp [hax, ham] at h1 ⊢ <;> omega
    intro b hb a ha
    rw [hsub, Multiset.mem_cons] at hb
    rw [Multiset.mem_cons] at ha
    rcases hb with rfl | hb
    · rcases ha with rfl | ha
      · exact le_of_lt hx
      · exact hmin a (Multiset.mem_cons_of_mem ha)
    · have hbm : b ≤ m := hdom b hb m (Multiset.mem_cons_self m r)
      rcases ha with rfl | ha
      · exact le_trans hbm (le_of_lt hx)
      · exact hdom b hb a (Multiset.mem_cons_of_mem ha)

theorem isTopN_count_le {N : Nat} {s t1 t2 : Multiset Int}
    (h1 : IsTopN N s t1) (h2 : IsTopN N s t2) : ∀ a, Multiset.count a t1 ≤ Multiset.count a t2 := by
  obtain ⟨hle1, hcard1, hdom1⟩ := h1
  obtain ⟨hle2, hcard2, hdom2⟩ := h2
  by_contra hcon
  push_neg at hcon
  obtain ⟨a, ha⟩ := hcon
  have hb : ∃ b, Multiset.count b t1 < Multiset.count b t2 := by
    by_contra hcon2
    push_neg at hcon2
    have ht21 : t2 ≤ t1 := Multiset.le_iff_count.2 hcon2
    have ht : t2 = t1 := Multiset.eq_of_le_of_card_le ht21 (by omega)
    rw [ht] at ha
    omega
  obtain ⟨b, hb⟩ := hb
  have hat1 : a ∈ t1 := by
    rw [← Multiset.count_pos]; omega
  have hbt2 : b ∈ t2 := by
    rw [← Multiset.count_pos]; omega
  have hast2 : a ∈ s - t2 := by
    rw [← Multiset.count_pos, Multiset.count_sub]
    have := Multiset.count_le_of_le a hle1
    omega
  have hbst1 : b ∈ s - t1 := by
    rw [← Multiset.count_pos, Multiset.count_sub]
    have := Multiset.count_le_of_le b hle2
    omega
  have hab : a ≤ b := hdom2 a hast2 b hbt2
  have hba : b ≤ a := hdom1 b hbst1 a hat1
  have heq : a = b := le_antisymm hab hba
  rw [heq] at ha
  omega

theorem isTopN_unique {N : Nat} {s t1 t2 : Multiset Int}
    (h1 : IsTopN N s t1) (h2 : IsTopN N s t2) : t1 = t2 := by
  have hc1 := h1.2.1
  have hc2 := h2.2.1
  have h12 := isTopN_count_le h1 h2
  exact Multiset.eq_of_le_of_card_le (Multiset.le_iff_count.2 h12) (by omega)

theorem sizesL_append_singleton (l : List Item) (x : Item) :
    sizesL (l ++ [x]) = x.size ::ₘ sizesL l := by
  rw [sizesL, List.map_append]
  rw [show ((List.map Item.size l ++ List.map Item.size [x] : List Int) : Multiset Int)
    = ↑(List.map Item.size l) + ↑(List.map Item.size [x]) from rfl]
  simp only [List.map_cons, List.map_nil]
  rw [Multiset.coe_singleton, ← Multiset.singleton_add, add_comm, Multiset.singleton_add]
  rfl

theorem sizesL_card (l : List Item) : Multiset.card (sizesL l) = l.length := by
  simp [sizesL]

theorem sizesL_eq_map_coe (l : List Item) :
    sizesL l = Multiset.map Item.size (l : Multiset Item) := by
  simp [sizesL]

theorem sizesL_of_coe_cons {l l' : List Item} {x : Item}
    (h : (l : Multiset Item) = x ::ₘ (l' : Multiset Item)) :
    sizesL l = x.size ::ₘ sizesL l' := by
  rw [sizesL_eq_map_coe, h, Multiset.map_cons, ← sizesL_eq_map_coe]

theorem mem_sizesL {l : List Item} {a : Int} :
    a ∈ sizesL l ↔ ∃ y ∈ l, y.size = a := by
  simp [sizesL]

theorem root_min_mem {l : List Item} (hl : IsMinHeap l) :
    ∀ y ∈ l, (g l 0).size ≤ y.size := by
  intro y hy
  rcases List.mem_iff_getElem.1 hy with ⟨j, hj, rfl⟩
  have := root_min hl j hj
  rw [sz, sz, g_eq_getElem hj] at this
  exact this

theorem kstate_init (N : Nat) : KState N [] (NewKeeper N) [] := by
  refine ⟨rfl, ?_, ?_, ?_, ?_, Or.inl rfl⟩
  · intro j hj h0
    simp [NewKeeper] at hj
  · simp [NewKeeper]
  · refine ⟨le_refl _, by simp [NewKeeper, sizesL], ?_⟩
    intro b hb
    simp [sizesL, NewKeeper] at hb
  · intro e he
    simp at he

theorem considerStep {N : Nat} {adm : List Item} {k : Keeper} {ev : List Item} (x : Item)
    (hN : 0 < N) (hs : KState N adm k ev) :
    ∃ k', Consider k x = some k' ∧ KState N (adm ++ [x]) k' (ev ++ evictedStep k x) := by
  obtain ⟨hkN, hheap, hcard, htop, hdom, hfull⟩ := hs
  by_cases hlt : k.h.length < k.N
  · -- below capacity: plain push
    have hev : evictedStep k x = [] := by simp [evictedStep, hlt]
    obtain ⟨hph, hplen, hpcoe⟩ := heapPush_correct k.h x hheap
    refine ⟨⟨k.N, heapPush k.h x⟩, by simp [Consider, hlt], ?_⟩
    have hevnil : ev = [] := by
      rcases hfull with h | h
      · exact h
      · omega
    refine ⟨hkN, hph, ?_, ?_, ?_, ?_⟩
    · rw [hplen, List.length_append, List.length_singleton]
      omega
    · rw [sizesL_append_singleton, sizesL_of_coe_cons hpcoe]
      exact isTopN_grow htop (by rw [sizesL_card]; omega) x.size
    · rw [hev, List.append_nil, hevnil]
      intro e he
      simp at he
    · left
      rw [hev, List.append_nil, hevnil]
  · -- at capacity
    have hfullN : k.h.length = N := by omega
    have hadmN : N ≤ adm.length := by omega
    have hne : 0 < k.h.length := by omega
    obtain ⟨top, t, hh⟩ : ∃ top t, k.h = top :: t := by
      cases hht : k.h with
      | nil => rw [hht] at hne; simp at hne
      | cons a b => exact ⟨a, b, rfl⟩
    have htopg : top = g k.h 0 := by rw [hh]; rfl
    have hminmem : ∀ y ∈ k.h, top.size ≤ y.size := by
      rw [htopg]
      exact root_min_mem hheap
    have hmins : ∀ a ∈ sizesL k.h, top.size ≤ a := by
      intro a ha
      rcases mem_sizesL.1 ha with ⟨y, hy, rfl⟩
      exact hminmem y hy
    by_cases hx : top.size < x.size
    · -- strictly larger: evict the root, retain x
      obtain ⟨hp1, hp2len, hp2heap, hpcoe, hpmin⟩ := heapPop_correct k.h hne hheap
      obtain ⟨hqh, hqlen, hqcoe⟩ := heapPush_correct (heapPop k.h).2 x hp2heap
      have hpop1 : (heapPop k.h).1 = top := by rw [hp1, htopg]
      have hcons : Consider k x = some ⟨k.N, heapPush (heapPop k.h).2 x⟩ := by
        rw [Consider, if_neg hlt, hh]
        simp only []
        rw [if_pos hx]
      have hevs : evictedStep k x = [(heapPop k.h).1] := by
        rw [evictedStep, if_neg hlt, hh]
        simp only []
        rw [if_pos hx]
      refine ⟨⟨k.N, heapPush (heapPop k.h).2 x⟩, hcons, ?_⟩
      have hszk : sizesL k.h = top.size ::ₘ sizesL (heapPop k.h).2 := by
        rw [hpop1] at hpcoe
        exact sizesL_of_coe_cons hpcoe
      refine ⟨hkN, hqh, ?_, ?_, ?_, ?_⟩
      · rw [hqlen, hp2len, List.length_append, List.length_singleton]
        omega
      · rw [sizesL_append_singleton, sizesL_of_coe_cons hqcoe]
        apply isTopN_replace (hszk ▸ htop) (by rw [← hszk, sizesL_card]; omega)
          (hszk ▸ hmins) hx
      · intro e he a ha
        have hamem : a = x ∨ a ∈ (heapPop k.h).2 := by
          have hmem : a ∈ ((heapPush (heapPop k.h).2 x : List Item) : Multiset Item) :=
            Multiset.mem_coe.2 ha
          rw [hqcoe, Multiset.mem_cons] at hmem
          rcases hmem with h | h
          · exact Or.inl h
          · exact Or.inr (Multiset.mem_coe.1 h)
        have hsubmem : ∀ b, b ∈ (heapPop k.h).2 → b ∈ k.h := by
          intro b hb
          have hmem : b ∈ (k.h : Multiset Item) := by
            rw [hpcoe, Multiset.mem_cons]
            exact Or.inr (Multiset.mem_coe.2 hb)
          exact Multiset.mem_coe.1 hmem
        rw [List.mem_append] at he
        rcases he with he | he
        · rcases hamem with rfl | hmem
          · exact le_trans (hdom e he top (by rw [hh]; exact List.mem_cons_self _ _)) (le_of_lt hx)
          · exact hdom e he a (hsubmem a hmem)
        · rw [hevs, List.mem_singleton] at he
          subst he
          rw [hpop1]
          rcases hamem with rfl | hmem
          · exact le_of_lt hx
          · exact hminmem a (hsubmem a hmem)
      · right
        rw [hqlen, hp2len]
        omega
    · -- not strictly larger: reject x, keeper unchanged
      have hcons : Consider k x = some k := by
        rw [Consider, if_neg hlt, hh]
        simp only []
        rw [if_neg hx]
      have hevs : evictedStep k x = [] := by
        rw [evictedStep, if_neg hlt, hh]
        simp only []
        rw [if_neg hx]
      refine ⟨k, hcons, ?_⟩
      refine ⟨hkN, hheap, ?_, ?_, ?_, ?_⟩
      · rw [List.length_append, List.length_singleton]
        omega
      · rw [sizesL_append_singleton]
        exact isTopN_reject htop (by rw [sizesL_card]; omega) hmins (le_of_not_lt hx)
      · rw [hevs, List.append_nil]
        exact hdom
      · right
        exact hfullN

theorem considerRun_ok {N : Nat} (hN : 0 < N) :
    ∀ (xs : List Item) (adm : List Item) (k : Keeper) (ev : List Item),
      KState N adm k ev →
      ∃ kf evR, considerRun k xs = some (kf, evR) ∧ KState N (adm ++ xs) kf (ev ++ evR) := by
  intro xs
  induction xs with
  | nil =>
    intro adm k ev hs
    exact ⟨k, [], rfl, by simpa using hs⟩
  | cons x xs IH =>
    intro adm k ev hs
    obtain ⟨k', hk', hs'⟩ := considerStep x hN hs
    obtain ⟨kf, evR, hrun, hsf⟩ := IH (adm ++ [x]) k' (ev ++ evictedStep k x) hs'
    refine ⟨kf, evictedStep k x ++ evR, ?_, ?_⟩
    · simp only [considerRun, hk', hrun]
    · simpa [List.append_assoc] using hsf

/-- C1 counterexample: with capacity 2 and the stream (5,"a"), (5,"b"), (7,"c"),
the code retains the multiset ((5,"b")), ((7,"c")) — when (7,"c") arrives, the
heap's root is (5,"a"), the EARLIER of the two equal-sized items, and it is the
one evicted — while the claim's arrival-order tie-break demands that (5,"a"),
the first arrival, be preserved, i.e. retained multiset ((5,"a")), ((7,"c")). -/
theorem c1_counterexample :
    considerRun (NewKeeper 2) [⟨5, "a"⟩, ⟨5, "b"⟩, ⟨7, "c"⟩]
      = some (⟨2, [⟨5, "b"⟩, ⟨7, "c"⟩]⟩, [⟨5, "a"⟩]) ∧
    specTopByArrival 2 [⟨5, "a"⟩, ⟨5, "b"⟩, ⟨7, "c"⟩]
      = (([⟨7, "c"⟩, ⟨5, "a"⟩] : List Item) : Multiset Item) ∧
    (([⟨5, "b"⟩, ⟨7, "c"⟩] : List Item) : Multiset Item)
      ≠ (([⟨7, "c"⟩, ⟨5, "a"⟩] : List Item) : Multiset Item) := by
  refine ⟨?_, by decide, by decide⟩
  simp [considerRun, Consider, evictedStep, NewKeeper, heapPush, heapPop, siftUp, siftDown,
    swapL, g, sz, dItem]

/-- C1 (amended): for capacity N >= 1, every admission stream runs without
panicking, and after any prefix `xs` of admissions the keeper holds at most N
items, exactly `min N (length xs)` items, the multiset of retained SIZES is
exactly the multiset of the N largest sizes admitted so far (and is the unique
such multiset), and every retained item's size is >= the size of every item
evicted so far.  (The item-level tie-break by arrival order claimed by the spec
fails; see the counterexample.) -/
theorem c1_amended_topn_sizes (N : Nat) (hN : 0 < N) (xs : List Item) :
    ∃ k ev, considerRun (NewKeeper N) xs = some (k, ev) ∧
      k.h.length ≤ N ∧
      k.h.length = min N xs.length ∧
      IsTopN N (sizesL xs) (sizesL k.h) ∧
      (∀ t, IsTopN N (sizesL xs) t → t = sizesL k.h) ∧
      (∀ e ∈ ev, ∀ a ∈ k.h, e.size ≤ a.size) := by
  obtain ⟨kf, evR, hrun, hsf⟩ := considerRun_ok hN xs [] (NewKeeper N) [] (kstate_init N)
  rw [List.nil_append] at hsf
  obtain ⟨hkN, hheap, hcard, htop, hdom, hfull⟩ := hsf
  refine ⟨kf, evR, hrun, by omega, hcard, htop, ?_, hdom⟩
  intro t ht
  exact isTopN_unique ht htop

/-- C1 witness: capacity 3 with a concrete 2-item stream satisfies the
hypothesis 0 < N. -/
theorem c1_amended_witness :
    (0 < 3) ∧
    (∃ k ev, considerRun (NewKeeper 3) [⟨5, "a"⟩, ⟨9, "b"⟩] = some (k, ev) ∧
      k.h.length ≤ 3 ∧
      k.h.length = min 3 ([⟨5, "a"⟩, ⟨9, "b"⟩] : List Item).length ∧
      IsTopN 3 (sizesL [⟨5, "a"⟩, ⟨9, "b"⟩]) (sizesL k.h) ∧
      (∀ t, IsTopN 3 (sizesL [⟨5, "a"⟩, ⟨9, "b"⟩]) t → t = sizesL k.h) ∧
      (∀ e ∈ ev, ∀ a ∈ k.h, e.size ≤ a.size)) :=
  ⟨by decide, c1_amended_topn_sizes 3 (by decide) [⟨5, "a"⟩, ⟨9, "b"⟩]⟩

/-- C2 at the failing input: with capacity 2, after admitting sizes 5 then 7,
`ItemsDesc` returns the items in ASCENDING size order [5, 7] — not descending —
because the first Go loop already builds a descending array which the second
loop then reverses.  Length, size bound and destructiveness hold: the keeper's
heap is left empty. -/
theorem c2_drain_ascending_eval :
    considerRun (NewKeeper 2) [⟨5, "a"⟩, ⟨7, "b"⟩] = some (⟨2, [⟨5, "a"⟩, ⟨7, "b"⟩]⟩, []) ∧
    (ItemsDesc ⟨2, [⟨5, "a"⟩, ⟨7, "b"⟩]⟩).1 = [⟨5, "a"⟩, ⟨7, "b"⟩] ∧
    descBySize (ItemsDesc ⟨2, [⟨5, "a"⟩, ⟨7, "b"⟩]⟩).1 = false ∧
    (ItemsDesc ⟨2, [⟨5, "a"⟩, ⟨7, "b"⟩]⟩).2.h = [] := by
  have h1 : (ItemsDesc ⟨2, [⟨5, "a"⟩, ⟨7, "b"⟩]⟩).1 = [⟨5, "a"⟩, ⟨7, "b"⟩] := by
    simp [ItemsDesc, popList, popRest, heapPop, siftDown, swapL, g, sz, dItem]
  refine ⟨?_, h1, ?_, ?_⟩
  · simp [considerRun, Consider, evictedStep, NewKeeper, heapPush, heapPop, siftUp, siftDown,
      swapL, g, sz, dItem]
  · rw [h1]
    rfl
  · simp [ItemsDesc, popList, popRest, heapPop, siftDown, swapL, g, sz, dItem]

/-- C3 at the failing input: with capacity 0 the heap is empty, so `Consider`
falls into the Go branch that indexes `(*(k.h))[0]` on an empty slice — a
runtime panic (modeled as `none`) — instead of being a no-op.  Draining a
capacity-0 keeper does return the empty sequence. -/
theorem c3_zero_capacity_eval :
    (∀ x : Item, Consider (NewKeeper 0) x = none) ∧ (ItemsDesc (NewKeeper 0)).1 = [] :=
  ⟨fun _ => rfl, rfl⟩

/-- C6: admitting `x` to a keeper at capacity (holding N >= 1 items, with the
heap invariant every reachable keeper satisfies): the heap's root is a retained
item of minimum size; if `x.size` strictly exceeds it, exactly that minimum is
evicted and `x` retained (the new retained multiset plus the evicted root
equals the old retained multiset plus `x`, and the keeper stays at N items);
if `x.size` is less than or equal to it, the keeper is left completely
unchanged. -/
theorem c6_at_capacity (k : Keeper) (x : Item)
    (hfull : k.h.length = k.N) (hpos : 0 < k.N) (hheap : IsMinHeap k.h) :
    (∀ y ∈ k.h, (g k.h 0).size ≤ y.size) ∧
    ((g k.h 0).size < x.size →
      Consider k x = some ⟨k.N, heapPush (heapPop k.h).2 x⟩ ∧
      ((heapPush (heapPop k.h).2 x : List Item) : Multiset Item) + {g k.h 0}
        = (k.h : Multiset Item) + {x} ∧
      (heapPush (heapPop k.h).2 x).length = k.N) ∧
    (x.size ≤ (g k.h 0).size → Consider k x = some k) := by
  have hne : 0 < k.h.length := by omega
  have hnlt : ¬ k.h.length < k.N := by omega
  obtain ⟨top, t, hh⟩ : ∃ top t, k.h = top :: t := by
    cases hht : k.h with
    | nil => rw [hht] at hne; simp at hne
    | cons a b => exact ⟨a, b, rfl⟩
  have htopg : (g k.h 0) = top := by rw [hh]; rfl
  obtain ⟨hp1, hp2len, hp2heap, hpcoe, hpmin⟩ := heapPop_correct k.h hne hheap
  refine ⟨root_min_mem hheap, ?_, ?_⟩
  · intro hx
    obtain ⟨hqh, hqlen, hqcoe⟩ := heapPush_correct (heapPop k.h).2 x hp2heap
    refine ⟨?_, ?_, ?_⟩
    · rw [Consider, if_neg hnlt, hh]
      simp only []
      rw [htopg] at hx
      rw [if_pos hx]
    · rw [hqcoe, hpcoe, hp1]
      rw [← Multiset.singleton_add, ← Multiset.singleton_add]
      abel
    · rw [hqlen, hp2len]
      omega
  · intro hx
    rw [Consider, if_neg hnlt, hh]
    simp only []
    rw [htopg] at hx
    rw [if_neg (not_lt.2 hx)]

/-- C6 witness: a keeper of capacity 1 holding one item of size 5. -/
theorem c6_witness :
    ([(⟨5, "a"⟩ : Item)].length = (⟨1, [⟨5, "a"⟩]⟩ : Keeper).N) ∧
    (0 < (⟨1, [(⟨5, "a"⟩ : Item)]⟩ : Keeper).N) ∧
    IsMinHeap [(⟨5, "a"⟩ : Item)] ∧
    ((∀ y ∈ (⟨1, [(⟨5, "a"⟩ : Item)]⟩ : Keeper).h,
        (g (⟨1, [(⟨5, "a"⟩ : Item)]⟩ : Keeper).h 0).size ≤ y.size) ∧
      ((g (⟨1, [(⟨5, "a"⟩ : Item)]⟩ : Keeper).h 0).size < (⟨7, "b"⟩ : Item).size →
        Consider ⟨1, [⟨5, "a"⟩]⟩ ⟨7, "b"⟩
          = some ⟨1, heapPush (heapPop (⟨1, [(⟨5, "a"⟩ : Item)]⟩ : Keeper).h).2 ⟨7, "b"⟩⟩ ∧
        ((heapPush (heapPop (⟨1, [(⟨5, "a"⟩ : Item)]⟩ : Keeper).h).2 ⟨7, "b"⟩ : List Item) :
            Multiset Item) + {g (⟨1, [(⟨5, "a"⟩ : Item)]⟩ : Keeper).h 0}
          = ((⟨1, [(⟨5, "a"⟩ : Item)]⟩ : Keeper).h : Multiset Item) + {⟨7, "b"⟩} ∧
        (heapPush (heapPop (⟨1, [(⟨5, "a"⟩ : Item)]⟩ : Keeper).h).2 ⟨7, "b"⟩).length
          = (⟨1, [(⟨5, "a"⟩ : Item)]⟩ : Keeper).N) ∧
      ((⟨7, "b"⟩ : Item).size ≤ (g (⟨1, [(⟨5, "a"⟩ : Item)]⟩ : Keeper).h 0).size →
        Consider ⟨1, [⟨5, "a"⟩]⟩ ⟨7, "b"⟩ = some ⟨1, [⟨5, "a"⟩]⟩)) :=
  ⟨by decide, by decide, by decide,
    c6_at_capacity ⟨1, [⟨5, "a"⟩]⟩ ⟨7, "b"⟩ (by decide) (by decide) (by decide)⟩

theorem walkFn_emits {ext : Stdlib} {cfg : Config} {xdev : Bool} {rootDev : Int}
    {path : FPath} {d : Option DirEnt} {dev : Option Int} {errFlag : Bool} :
    ∀ q ∈ (walkFn ext cfg xdev rootDev path d dev errFlag).1,
      q = path ∧ hasPrefix path cfg.Skips = false ∧
      matchAnyGlob ext path cfg.ExcludeGlobs = false := by
  intro q hq
  rw [walkFn] at hq
  split_ifs at hq with h1 h2 h3 h4
  · simp at hq
  · revert hq
    dsimp only
    split <;> simp
  · revert hq
    dsimp only
    split <;> simp
  · revert hq
    dsimp only
    split <;> simp
  · revert hq
    dsimp only
    split
    · split <;> simp
    · intro hq
      simp at hq
      subst hq
      exact ⟨rfl, by simpa using h2, by simpa using h3⟩

theorem walkFn_err_emits {ext : Stdlib} {cfg : Config} {xdev : Bool} {rootDev : Int}
    {path : FPath} {d : Option DirEnt} {dev : Option Int} :
    (walkFn ext cfg xdev rootDev path d dev true).1 = [] := by
  rw [walkFn]
  simp

theorem walkDir_pruned {ext : Stdlib} {cfg : Config} {xdev : Bool} {rootDev : Int}
    {P : FPath} (t : FSTree)
    (h : hasPrefix P cfg.Skips = true ∨ matchAnyGlob ext P cfg.ExcludeGlobs = true) :
    (walkDir ext cfg xdev rootDev P t).1 = [] := by
  have hfn : ∀ (d : Option DirEnt) (dev : Option Int),
      walkFn ext cfg xdev rootDev P d dev false
        = ([], if (d.getD ⟨false, false⟩).isDir then some WErr.skipDir else none) := by
    intro d dev
    rw [walkFn]
    rcases hdir : (d.getD ⟨false, false⟩).isDir with _ | _
    · rcases h with h | h
      · simp [h, hdir]
      · rcases hpre : hasPrefix P cfg.Skips with _ | _ <;> simp [hpre, h, hdir]
    · rcases h with h | h
      · simp [h, hdir]
      · rcases hpre : hasPrefix P cfg.Skips with _ | _ <;> simp [hpre, h, hdir]
  cases t with
  | file d =>
    rw [walkDir]
    simp [hfn, FSTree.dirEnt]
    intro dv re cs hcon
    exact FSTree.noConfusion hcon
  | symlink d =>
    rw [walkDir]
    simp [hfn, FSTree.dirEnt]
    intro dv re cs hcon
    exact FSTree.noConfusion hcon
  | dir dv re cs =>
    rw [walkDir]
    simp [hfn, FSTree.dirEnt]

theorem walkDir_nondir_emits {ext : Stdlib} {cfg : Config} {xdev : Bool} {rootDev : Int}
    {path : FPath} {t : FSTree} (h : t.dirEnt.isDir = false) :
    (walkDir ext cfg xdev rootDev path t).1
      = (walkFn ext cfg xdev rootDev path (some t.dirEnt) t.dev false).1 := by
  cases t with
  | file d =>
    rw [walkDir]
    all_goals
      first
        | (split <;> rfl)
        | (intro dv re cs hcon
           exact FSTree.noConfusion hcon)
  | symlink d =>
    rw [walkDir]
    all_goals
      first
        | (split <;> rfl)
        | (intro dv re cs hcon
           exact FSTree.noConfusion hcon)
  | dir dv re cs => simp [FSTree.dirEnt] at h

theorem walkDir_dir_emits {ext : Stdlib} {cfg : Config} {xdev : Bool} {rootDev : Int}
    {path : FPath} {dv : Option Int} {re : Bool} {cs : List (FPath × FSTree)} :
    ∀ q ∈ (walkDir ext cfg xdev rootDev path (.dir dv re cs)).1,
      q ∈ (walkFn ext cfg xdev rootDev path (some (FSTree.dir dv re cs).dirEnt) dv false).1 ∨
      q ∈ (walkChildren ext cfg xdev rootDev path cs).1 := by
  intro q hq
  rw [walkDir] at hq
  revert hq
  dsimp only
  have hr2 : ((if re then walkFn ext cfg xdev rootDev path (some (FSTree.dir dv re cs).dirEnt) dv true
      else ([], none)) : List FPath × Option WErr).1 = [] := by
    split
    · exact walkFn_err_emits
    · rfl
  split
  · intro hq
    exact Or.inl hq
  · split
    · intro hq
      rw [List.mem_append, hr2] at hq
      rcases hq with hq | hq
      · exact Or.inl hq
      · simp at hq
    · intro hq
      rw [List.mem_append, List.mem_append, hr2] at hq
      rcases hq with (hq | hq) | hq
      · exact Or.inl hq
      · simp at hq
      · exact Or.inr hq

theorem walkChildren_emits_mem {ext : Stdlib} {cfg : Config} {xdev : Bool} {rootDev : Int}
    {path : FPath} {cs : List (FPath × FSTree)} :
    ∀ q ∈ (walkChildren ext cfg xdev rootDev path cs).1,
      ∃ name c, (name, c) ∈ cs ∧
        q ∈ (walkDir ext cfg xdev rootDev (path ++ '/' :: name) c).1 := by
  induction cs with
  | nil =>
    intro q hq
    rw [walkChildren] at hq
    simp at hq
  | cons nc rest IH =>
    intro q hq
    obtain ⟨name, c⟩ := nc
    rw [walkChildren] at hq
    revert hq
    dsimp only
    split
    · intro hq
      exact ⟨name, c, List.mem_cons_self _ _, hq⟩
    · intro hq
      rw [List.mem_append] at hq
      rcases hq with hq | hq
      · exact ⟨name, c, List.mem_cons_self _ _, hq⟩
      · obtain ⟨n2, c2, hm, hq2⟩ := IH q hq
        exact ⟨n2, c2, List.mem_cons_of_mem _ hm, hq2⟩

theorem walkDir_emits_checks (ext : Stdlib) (cfg : Config) (xdev : Bool) (rootDev : Int)
    (path : FPath) (t : FSTree) :
    ∀ q ∈ (walkDir ext cfg xdev rootDev path t).1,
      hasPrefix q cfg.Skips = false ∧ matchAnyGlob ext q cfg.ExcludeGlobs = false := by
  intro q hq
  cases t with
  | file d =>
    rw [walkDir_nondir_emits (by simp [FSTree.dirEnt])] at hq
    obtain ⟨rfl, h1, h2⟩ := walkFn_emits q hq
    exact ⟨h1, h2⟩
  | symlink d =>
    rw [walkDir_nondir_emits (by simp [FSTree.dirEnt])] at hq
    obtain ⟨rfl, h1, h2⟩ := walkFn_emits q hq
    exact ⟨h1, h2⟩
  | dir dv re cs =>
    rcases walkDir_dir_emits q hq with hq | hq
    · obtain ⟨rfl, h1, h2⟩ := walkFn_emits q hq
      exact ⟨h1, h2⟩
    · obtain ⟨name, c, hmem, hq'⟩ := walkChildren_emits_mem q hq
      have hsz : sizeOf c < sizeOf (FSTree.dir dv re cs) := by
        have h1 := List.sizeOf_lt_of_mem hmem
        have h2 : sizeOf c < sizeOf (name, c) := by
          simp
        simp only [FSTree.dir.sizeOf_spec]
        omega
      exact walkDir_emits_checks ext cfg xdev rootDev (path ++ '/' :: name) c q hq'
termination_by sizeOf t

theorem prefix_step {P p name : FPath} (hn : ¬ ('/' ∈ name))
    (h : (P ++ ['/']) <+: (p ++ '/' :: name)) : P = p ∨ (P ++ ['/']) <+: p := by
  have hB : p ++ '/' :: name = (p ++ ['/']) ++ name := by simp
  rw [hB] at h
  rcases le_or_lt (P ++ ['/']).length (p ++ ['/']).length with hlen | hlen
  · have hAB : (P ++ ['/']) <+: (p ++ ['/']) :=
      List.prefix_of_prefix_length_le h (List.prefix_append _ _) hlen
    rcases eq_or_lt_of_le hlen with heq | hlt
    · left
      have heql : (P ++ ['/']) = (p ++ ['/']) := List.IsPrefix.eq_of_length hAB heq
      exact List.append_cancel_right heql
    · right
      refine List.prefix_of_prefix_length_le hAB (List.prefix_append p ['/']) ?_
      simp at hlt ⊢
      omega
  · exfalso
    have hBA : (p ++ ['/']) <+: (P ++ ['/']) :=
      List.prefix_of_prefix_length_le (List.prefix_append _ _) h (le_of_lt hlen)
    obtain ⟨s, hs⟩ := hBA
    rw [← hs] at h
    have hsname : s <+: name := (List.prefix_append_right_inj _).1 h
    have hsne : s ≠ [] := by
      intro hnil
      rw [hnil, List.append_nil] at hs
      have := congrArg List.length hs
      simp at this hlen
      omega
    have hlastA : (P ++ ['/']).getLast? = some '/' := by
      rw [List.getLast?_append_of_ne_nil _ (by simp)]
      rfl
    have hlastS : s.getLast? = some '/' := by
      rw [← List.getLast?_append_of_ne_nil (p ++ ['/']) hsne, hs]
      exact hlastA
    have hmemS : '/' ∈ s := by
      obtain ⟨hne2, heq⟩ := List.mem_getLast?_eq_getLast (by rw [hlastS]; rfl)
      rw [heq]
      exact List.getLast_mem hne2
    exact hn (hsname.subset hmemS)

theorem namesOkL_mem {cs : List (FPath × FSTree)} {name : FPath} {c : FSTree}
    (hwf : namesOkL cs = true) (hmem : (name, c) ∈ cs) :
    ¬ ('/' ∈ name) ∧ namesOk c = true := by
  induction cs with
  | nil => simp at hmem
  | cons nc rest IH =>
    obtain ⟨n2, c2⟩ := nc
    rw [namesOkL] at hwf
    simp only [Bool.and_eq_true, Bool.not_eq_true'] at hwf
    rcases List.mem_cons.1 hmem with heq | hmem'
    · obtain ⟨h1, h2⟩ := Prod.mk.injEq .. ▸ heq
      subst h1
      subst h2
      exact ⟨by simpa using hwf.1.1, hwf.1.2⟩
    · exact IH hwf.2 hmem'

theorem walkDir_glob_prune (ext : Stdlib) (cfg : Config) (xdev : Bool) (rootDev : Int)
    (P : FPath) (hP : matchAnyGlob ext P cfg.ExcludeGlobs = true)
    (t : FSTree) (p : FPath) (hwf : namesOk t = true) (hne : p ≠ P)
    (hnp : ¬ ((P ++ ['/']) <+: p)) :
    ∀ q ∈ (walkDir ext cfg xdev rootDev p t).1, q ≠ P ∧ ¬ ((P ++ ['/']) <+: q) := by
  intro q hq
  cases t with
  | file d =>
    rw [walkDir_nondir_emits (by simp [FSTree.dirEnt])] at hq
    obtain ⟨rfl, -, -⟩ := walkFn_emits q hq
    exact ⟨hne, hnp⟩
  | symlink d =>
    rw [walkDir_nondir_emits (by simp [FSTree.dirEnt])] at hq
    obtain ⟨rfl, -, -⟩ := walkFn_emits q hq
    exact ⟨hne, hnp⟩
  | dir dv re cs =>
    rcases walkDir_dir_emits q hq with hq' | hq'
    · obtain ⟨rfl, -, -⟩ := walkFn_emits q hq'
      exact ⟨hne, hnp⟩
    · obtain ⟨name, c, hmem, hq2⟩ := walkChildren_emits_mem q hq'
      obtain ⟨hslash, hwc⟩ := namesOkL_mem (by rw [namesOk] at hwf; exact hwf) hmem
      by_cases hpP : p ++ '/' :: name = P
      · rw [hpP, walkDir_pruned c (Or.inr hP)] at hq2
        simp at hq2
      · have hnpp : ¬ ((P ++ ['/']) <+: (p ++ '/' :: name)) := by
          intro hcon
          rcases prefix_step hslash hcon with h | h
          · exact hne h.symm
          · exact hnp h
        have hsz : sizeOf c < sizeOf (FSTree.dir dv re cs) := by
          have h1 := List.sizeOf_lt_of_mem hmem
          have h2 : sizeOf c < sizeOf (name, c) := by simp
          simp only [FSTree.dir.sizeOf_spec]
          omega
        exact walkDir_glob_prune ext cfg xdev rootDev P hP c (p ++ '/' :: name) hwc hpP hnpp q hq2
termination_by sizeOf t

theorem workerStep_some {cfg : Config} {statFn : FPath → Option FInfo} {p : FPath} {r : Result}
    (h : workerStep cfg statFn p = some r) :
    r.Path = p ∧ ∃ info, statFn p = some info ∧ info.isDir = false ∧
      r.Size = fileBytes info cfg.Apparent ∧ cfg.MinSize ≤ r.Size := by
  cases hst : statFn p with
  | none =>
    rw [workerStep, hst] at h
    simp at h
  | some info =>
    rw [workerStep, hst] at h
    dsimp only at h
    split_ifs at h with h1 h2
    all_goals
      first
        | (exfalso
           simp at h
           done)
        | (cases h
           exact ⟨rfl, info, rfl, by simpa using h1, rfl, h2⟩)

theorem workerStep_statErr {cfg : Config} {statFn : FPath → Option FInfo} {p : FPath}
    (h : statFn p = none) : workerStep cfg statFn p = none := by
  rw [workerStep, h]

theorem workerStep_dir {cfg : Config} {statFn : FPath → Option FInfo} {p : FPath} {i : FInfo}
    (h : statFn p = some i) (hdir : i.isDir = true) : workerStep cfg statFn p = none := by
  rw [workerStep, h]
  simp [hdir]

theorem mem_scanM {ext : Stdlib} {cfg : Config} {fs : Option FSTree}
    {statFn : FPath → Option FInfo} {r : Result} (h : r ∈ ScanM ext cfg fs statFn) :
    ∃ p, p ∈ walkRoot ext cfg (cfg.XDev && (devOfRoot fs).isSome) ((devOfRoot fs).getD 0) fs ∧
      workerStep cfg statFn p = some r := by
  rw [ScanM] at h
  exact List.mem_filterMap.1 h

theorem walkRoot_emits_checks (ext : Stdlib) (cfg : Config) (xdev : Bool) (rootDev : Int)
    (fs : Option FSTree) :
    ∀ q ∈ walkRoot ext cfg xdev rootDev fs,
      hasPrefix q cfg.Skips = false ∧ matchAnyGlob ext q cfg.ExcludeGlobs = false := by
  intro q hq
  cases fs with
  | none =>
    rw [walkRoot, walkFn_err_emits] at hq
    simp at hq
  | some t => exact walkDir_emits_checks ext cfg xdev rootDev cfg.Root t q hq

theorem hasPrefix_of_mem {q p : FPath} {ps : List FPath} (hp : p ∈ ps) (hpre : p <+: q) :
    hasPrefix q ps = true := by
  rw [hasPrefix, List.any_eq_true]
  exact ⟨p, hp, List.isPrefixOf_iff_prefix.2 hpre⟩

theorem skip_prefix_no_results {ext : Stdlib} {cfg : Config} {fs : Option FSTree}
    {statFn : FPath → Option FInfo} {P p : FPath} (hp : p ∈ cfg.Skips) (hpre : p <+: P) :
    ∀ r ∈ ScanM ext cfg fs statFn, r.Path ≠ P ∧ ¬ ((P ++ ['/']) <+: r.Path) := by
  intro r hr
  obtain ⟨q, hq, hw⟩ := mem_scanM hr
  obtain ⟨hpath, -⟩ := workerStep_some hw
  have hchecks := walkRoot_emits_checks ext cfg _ _ fs q hq
  constructor
  · intro heq
    rw [hpath] at heq
    subst heq
    rw [hasPrefix_of_mem hp hpre] at hchecks
    simp at hchecks
  · intro hcon
    rw [hpath] at hcon
    have hpq : p <+: q :=
      hpre.trans ((List.prefix_append P ['/']).trans hcon)
    rw [hasPrefix_of_mem hp hpq] at hchecks
    simp at hchecks

/-- C10: the skip check is a plain string-prefix test on the unnormalized path.
Any configured prefix that is a string prefix of a path makes `hasPrefix` true;
in particular the prefix "/proc" also covers the unrelated sibling path
"/proc-backup"; `walkFn` then emits nothing for such a path and prunes its
subtree when it is a directory; consequently no ScanResult is ever produced
for such a path or any path beneath it. -/
theorem c10_skip_is_string_test :
    (∀ (P : FPath) (ps : List FPath) (p : FPath), p ∈ ps → p <+: P →
      hasPrefix P ps = true) ∧
    (hasPrefix ("/proc-backup".data) ["/proc".data] = true) ∧
    (∀ (ext : Stdlib) (cfg : Config) (xdev : Bool) (rootDev : Int) (P : FPath)
      (dv : Option Int) (d : DirEnt), hasPrefix P cfg.Skips = true →
      walkFn ext cfg xdev rootDev P (some d) dv false
        = ([], if d.isDir then some WErr.skipDir else none)) ∧
    (∀ (ext : Stdlib) (cfg : Config) (fs : Option FSTree)
      (statFn : FPath → Option FInfo) (P p : FPath), p ∈ cfg.Skips → p <+: P →
      ∀ r ∈ ScanM ext cfg fs statFn, r.Path ≠ P ∧ ¬ ((P ++ ['/']) <+: r.Path)) := by
  refine ⟨fun P ps p hp hpre => hasPrefix_of_mem hp hpre, by decide, ?_, ?_⟩
  · intro ext cfg xdev rootDev P dv d h
    rw [walkFn]
    rcases hdir : d.isDir with _ | _ <;> simp [h, hdir]
  · intro ext cfg fs statFn P p hp hpre
    exact skip_prefix_no_results hp hpre

/-- C8 (amended): no ScanResult is ever produced at or beneath a path matching
a configured skip prefix (any path at all); and, on a well-formed tree, none at
or beneath a path AT OR BELOW THE SCAN ROOT matching a configured exclude glob.
(For a glob-matching path strictly above the root the original claim fails;
see the counterexample.) -/
theorem c8_amended_pruned_subtree (ext : Stdlib) (cfg : Config) (fs : Option FSTree)
    (statFn : FPath → Option FInfo) (P : FPath) :
    (hasPrefix P cfg.Skips = true →
      ∀ r ∈ ScanM ext cfg fs statFn, r.Path ≠ P ∧ ¬ ((P ++ ['/']) <+: r.Path)) ∧
    (∀ t, fs = some t → namesOk t = true →
      matchAnyGlob ext P cfg.ExcludeGlobs = true →
      (P = cfg.Root ∨ (cfg.Root ++ ['/']) <+: P) →
      ∀ r ∈ ScanM ext cfg fs statFn, r.Path ≠ P ∧ ¬ ((P ++ ['/']) <+: r.Path)) := by
  constructor
  · intro hP
    obtain ⟨p, hp, hpre⟩ := List.any_eq_true.1 hP
    exact skip_prefix_no_results hp (List.isPrefixOf_iff_prefix.1 hpre)
  · intro t hfs hwf hglob hroot r hr
    subst hfs
    obtain ⟨q, hq, hw⟩ := mem_scanM hr
    obtain ⟨hpath, -⟩ := workerStep_some hw
    rw [walkRoot] at hq
    rcases hroot with heq | hroot
    · rw [← heq, walkDir_pruned t (Or.inr hglob)] at hq
      simp at hq
    · have hne : cfg.Root ≠ P := by
        intro he
        rw [he] at hroot
        have := List.IsPrefix.length_le hroot
        simp at this
      have hnp : ¬ ((P ++ ['/']) <+: cfg.Root) := by
        intro hcon
        have h1 := List.IsPrefix.length_le hroot
        have h2 := List.IsPrefix.length_le hcon
        simp at h1 h2
        omega
      rw [hpath]
      exact walkDir_glob_prune ext cfg _ _ P hglob t cfg.Root hwf hne hnp q hq

/-- C9: every ScanResult's size is at least the configured minimum (the bound
is inclusive); a candidate whose re-stat fails, or that stats as a directory,
is discarded without emitting anything. -/
theorem c9_min_size (ext : Stdlib) (cfg : Config) (fs : Option FSTree)
    (statFn : FPath → Option FInfo) :
    (∀ r ∈ ScanM ext cfg fs statFn, cfg.MinSize ≤ r.Size) ∧
    (∀ p, statFn p = none → workerStep cfg statFn p = none) ∧
    (∀ p i, statFn p = some i → i.isDir = true → workerStep cfg statFn p = none) := by
  refine ⟨?_, fun p h => workerStep_statErr h, fun p i h hd => workerStep_dir h hd⟩
  intro r hr
  obtain ⟨q, hq, hw⟩ := mem_scanM hr
  obtain ⟨-, info, -, -, -, hmin⟩ := workerStep_some hw
  exact hmin

/-- C4 (amended): an inaccessible root is not surfaced to the caller at all.
`Scan` returns only a channel of results and discards `WalkDir`'s error, and
the callback swallows the root error, so the scan of an inaccessible root is
an empty, normally-closed stream with no caller-visible failure. -/
theorem c4_amended_root_silent (ext : Stdlib) (cfg : Config)
    (statFn : FPath → Option FInfo) : ScanM ext cfg none statFn = [] := by
  rw [ScanM]
  dsimp only [devOfRoot]
  rw [walkRoot, walkFn_err_emits]
  rfl

/-- C7: the sizing rule of `fileBytes`.  Apparent-size accounting returns the
logical length; on-disk accounting returns the allocated 512-byte block count
times 512; when block information is unavailable, on-disk accounting falls
back to the logical length. -/
theorem c7_file_bytes :
    (∀ i : FInfo, fileBytes i true = i.size) ∧
    (∀ (i : FInfo) (b : Int), i.blocks = some b → fileBytes i false = b * 512) ∧
    (∀ i : FInfo, i.blocks = none → fileBytes i false = i.size) := by
  refine ⟨fun i => rfl, ?_, ?_⟩
  · intro i b h
    rw [fileBytes, if_neg (by simp), h]
  · intro i h
    rw [fileBytes, if_neg (by simp), h]

/-- C7 witness: a file with 3 allocated blocks and logical length 100. -/
theorem c7_witness :
    ((⟨false, 100, some 3⟩ : FInfo).blocks = some 3) ∧
    fileBytes ⟨false, 100, some 3⟩ false = 3 * 512 :=
  ⟨rfl, c7_file_bytes.2.1 ⟨false, 100, some 3⟩ 3 rfl⟩

/-- C5 (amended): a candidate that stats as a directory is discarded by the
size-resolution worker: no directory ever becomes a ScanResult.  (The
traversal stage itself DOES emit surviving directories as candidates; see the
counterexample.) -/
theorem c5_amended_workers_drop_dirs (cfg : Config) (statFn : FPath → Option FInfo)
    (p : FPath) (i : FInfo) (h : statFn p = some i) (hdir : i.isDir = true) :
    workerStep cfg statFn p = none :=
  workerStep_dir h hdir

/-- C4 counterexample: an inaccessible root ("/r" cannot be Lstat-ed) produces
the SAME caller-visible outcome as a successful scan of an existing empty root
directory: an empty result stream that closes normally.  Nothing is "surfaced
to the caller": `Scan`'s return type carries no error at all (the callback
swallows the root error and `Scan` discards `WalkDir`'s return value), so the
claimed caller-visible failure does not exist. -/
theorem c4_counterexample :
    ScanM extEq cfgA none statA = [] ∧ ScanM extEq cfgA (some emptyDir) statA = [] := by
  constructor
  · rw [ScanM]
    dsimp only [devOfRoot]
    rw [walkRoot, walkFn_err_emits]
    rfl
  · simp [ScanM, devOfRoot, walkRoot, walkDir, walkChildren, walkFn, hasPrefix, matchAnyGlob,
      trimSpace, xdevPrune, FSTree.dirEnt, FSTree.dev, extEq, cfgA, emptyDir, statA,
      workerStep, fileBytes]

/-- C5 counterexample: scanning a root directory "/r" containing the file
"/r/f", the traversal emits the DIRECTORY path "/r" itself as the first
candidate handed to the workers, contradicting the claim that directory
entries are never emitted as CandidatePaths. -/
theorem c5_counterexample :
    walkRoot extEq cfgA (cfgA.XDev && (devOfRoot (some treeA)).isSome)
        ((devOfRoot (some treeA)).getD 0) (some treeA)
      = [cfgA.Root, "/r/f".data] ∧
    treeA.dirEnt.isDir = true ∧
    cfgA.Root = "/r".data := by
  refine ⟨?_, rfl, rfl⟩
  simp [walkRoot, walkDir, walkChildren, walkFn, hasPrefix, matchAnyGlob, trimSpace,
    xdevPrune, FSTree.dirEnt, FSTree.dev, extEq, cfgA, treeA, devOfRoot]

/-- C5 witness: the directory candidate "/r" is dropped by the worker. -/
theorem c5_amended_witness : workerStep cfgA statA ("/r".data) = none :=
  c5_amended_workers_drop_dirs cfgA statA ("/r".data) ⟨true, 0, none⟩ rfl rfl

/-- C9 witness: the one result of the concrete scan satisfies the bound. -/
theorem c9_witness : cfgA.MinSize ≤ (⟨10, "/r/f".data⟩ : Result).Size :=
  (c9_min_size extEq cfgA (some treeA) statA).1 ⟨10, "/r/f".data⟩ (by
    simp [ScanM, devOfRoot, walkRoot, walkDir, walkChildren, walkFn, hasPrefix, matchAnyGlob,
      trimSpace, xdevPrune, FSTree.dirEnt, FSTree.dev, extEq, cfgA, treeA, statA,
      workerStep, fileBytes])

/-- C8 counterexample: with the scan rooted at "/r/sub" and an exclude glob
whose only match is "/r" (a wildcard-free pattern matches exactly itself), the
path "/r" matches a configured exclude glob, yet the scan produces the result
"/r/sub/f", which lies beneath "/r".  The walk never visits "/r", so nothing
prunes its subtree: the claim fails for glob-matching paths above the root. -/
theorem c8_counterexample :
    matchAnyGlob extEq ("/r".data) cfg8.ExcludeGlobs = true ∧
    ScanM extEq cfg8 (some tree8) stat8 = [⟨10, "/r/sub/f".data⟩] ∧
    (("/r".data ++ ['/']) <+: ("/r/sub/f".data)) := by
  refine ⟨by decide, ?_, by decide⟩
  simp [ScanM, devOfRoot, walkRoot, walkDir, walkChildren, walkFn, hasPrefix, matchAnyGlob,
    trimSpace, xdevPrune, FSTree.dirEnt, FSTree.dev, extEq, cfg8, tree8, stat8,
    workerStep, fileBytes]

/-- C8 witness: in the concrete scan, the sole result "/r/keep" is neither the
glob-matching path "/r/ex" nor beneath it. -/
theorem c8_witness :
    (⟨10, "/r/keep".data⟩ : Result).Path ≠ ("/r/ex".data) ∧
    ¬ ((("/r/ex".data) ++ ['/']) <+: (⟨10, "/r/keep".data⟩ : Result).Path) :=
  (c8_amended_pruned_subtree extEq cfgW (some treeW) statW ("/r/ex".data)).2 treeW rfl
    (by simp [treeW, namesOk, namesOkL])
    (by decide)
    (Or.inr (by decide))
    ⟨10, "/r/keep".data⟩
    (by simp [ScanM, devOfRoot, walkRoot, walkDir, walkChildren, walkFn, hasPrefix,
      matchAnyGlob, trimSpace, xdevPrune, FSTree.dirEnt, FSTree.dev, extEq, cfgW, treeW,
      statW, workerStep, fileBytes])

/-- C10 witness: "/r/p" is a plain string prefix of "/r/p-backup" although not
a whole component; the sole result of the concrete scan, "/r/keep", is neither
"/r/p-backup" nor beneath it. -/
theorem c10_witness :
    (⟨10, "/r/keep".data⟩ : Result).Path ≠ ("/r/p-backup".data) ∧
    ¬ ((("/r/p-backup".data) ++ ['/']) <+: (⟨10, "/r/keep".data⟩ : Result).Path) :=
  c10_skip_is_string_test.2.2.2 extEq cfg10 (some tree10) stat10
    ("/r/p-backup".data) ("/r/p".data) (by decide) (by decide)
    ⟨10, "/r/keep".data⟩
    (by simp [ScanM, devOfRoot, walkRoot, walkDir, walkChildren, walkFn, hasPrefix,
      matchAnyGlob, trimSpace, xdevPrune, FSTree.dirEnt, FSTree.dev, extEq, cfg10, tree10,
      stat10, workerStep, fileBytes])
